import Mathlib

/-!
Verification of the LSM-tree key-value store (Go sources under src/):
shallow embedding of the write-ahead log writer/reader, the SSTable
block writer/reader and writer, and the engine (db.Set / db.Delete /
db.Get / flushMemtables), together with proofs or refutations of the
specification claims.

Byte strings are modelled as `List Nat` (each element a byte value);
machine integers are `Nat` with explicit reduction mod 2^32 where the
source uses uint32.
-/

/-- Byte strings: Go `[]byte` as a list of byte values. -/
abbrev Bytes := List Nat

/-- Go `bytes.Compare`: lexicographic comparison returning -1, 0, or 1. -/
def bytesCompare : Bytes → Bytes → Int
  | [], [] => 0
  | [], _ :: _ => -1
  | _ :: _, [] => 1
  | a :: as, b :: bs =>
    if a < b then -1 else if b < a then 1 else bytesCompare as bs

theorem bytesCompare_trichotomy (a b : Bytes) :
    bytesCompare a b = -1 ∨ bytesCompare a b = 0 ∨ bytesCompare a b = 1 := by
  induction a generalizing b with
  | nil => cases b <;> simp [bytesCompare]
  | cons x as ih =>
    cases b with
    | nil => simp [bytesCompare]
    | cons y bs =>
      simp only [bytesCompare]
      split
      · exact Or.inl rfl
      · split
        · exact Or.inr (Or.inr rfl)
        · exact ih bs

theorem bytesCompare_swap (a b : Bytes) :
    bytesCompare b a = -(bytesCompare a b) := by
  induction a generalizing b with
  | nil =>
    cases b with
    | nil => simp [bytesCompare]
    | cons y bs => simp [bytesCompare]
  | cons x as ih =>
    cases b with
    | nil => simp [bytesCompare]
    | cons y bs =>
      simp only [bytesCompare]
      rcases Nat.lt_trichotomy x y with h | h | h
      · simp [h, Nat.lt_asymm h]
      · subst h
        simp [Nat.lt_irrefl, ih bs]
      · simp [h, Nat.lt_asymm h]

theorem bytesCompare_le_trans {a b c : Bytes}
    (hab : bytesCompare a b ≠ 1) (hbc : bytesCompare b c ≠ 1) :
    bytesCompare a c ≠ 1 := by
  induction a generalizing b c with
  | nil => cases c <;> simp [bytesCompare]
  | cons x as ih =>
    cases b with
    | nil => simp [bytesCompare] at hab
    | cons y bs =>
      cases c with
      | nil => simp [bytesCompare] at hbc
      | cons z cs =>
        simp only [bytesCompare] at hab hbc ⊢
        rcases Nat.lt_trichotomy x y with hxy | hxy | hxy
        · -- x < y ≤ z
          rcases Nat.lt_trichotomy y z with hyz | hyz | hyz
          · rw [if_pos (Nat.lt_trans hxy hyz)]; simp
          · subst hyz; rw [if_pos hxy]; simp
          · rw [if_neg (Nat.lt_asymm hyz), if_pos hyz] at hbc; exact absurd rfl hbc
        · subst hxy
          rw [if_neg (Nat.lt_irrefl x), if_neg (Nat.lt_irrefl x)] at hab
          rcases Nat.lt_trichotomy x z with hxz | hxz | hxz
          · rw [if_pos hxz]; simp
          · subst hxz
            rw [if_neg (Nat.lt_irrefl x), if_neg (Nat.lt_irrefl x)] at hbc ⊢
            exact ih hab hbc
          · rw [if_neg (Nat.lt_asymm hxz), if_pos hxz] at hbc; exact absurd rfl hbc
        · rw [if_neg (Nat.lt_asymm hxy), if_pos hxy] at hab; exact absurd rfl hab

theorem bytesCompare_ne_one_iff {a b : Bytes} :
    bytesCompare a b ≠ 1 ↔ bytesCompare a b = -1 ∨ bytesCompare a b = 0 := by
  rcases bytesCompare_trichotomy a b with h | h | h <;> simp [h]

theorem bytesCompare_eq_zero_iff {a b : Bytes} :
    bytesCompare a b = 0 ↔ a = b := by
  constructor
  · intro h
    induction a generalizing b with
    | nil => cases b with
      | nil => rfl
      | cons y bs => simp [bytesCompare] at h
    | cons x as ih =>
      cases b with
      | nil => simp [bytesCompare] at h
      | cons y bs =>
        simp only [bytesCompare] at h
        rcases Nat.lt_trichotomy x y with hxy | hxy | hxy
        · rw [if_pos hxy] at h; exact absurd h (by decide)
        · subst hxy
          rw [if_neg (Nat.lt_irrefl x), if_neg (Nat.lt_irrefl x)] at h
          rw [ih h]
        · rw [if_neg (Nat.lt_asymm hxy), if_pos hxy] at h
          exact absurd h (by decide)
  · intro h
    subst h
    induction a with
    | nil => rfl
    | cons x as ih => simp [bytesCompare, ih]

theorem bytesCompare_lt_of_lt_of_le {a b c : Bytes}
    (hab : bytesCompare a b = -1) (hbc : bytesCompare b c ≠ 1) :
    bytesCompare a c = -1 := by
  have hab' : bytesCompare a b ≠ 1 := by rw [hab]; decide
  have hac := bytesCompare_le_trans hab' hbc
  rcases bytesCompare_ne_one_iff.mp hac with h | h
  · exact h
  · exfalso
    have hca : a = c := bytesCompare_eq_zero_iff.mp h
    subst hca
    -- a < b and b ≤ a: contradiction via swap
    have h1 : bytesCompare b a = 1 := by
      rw [bytesCompare_swap a b]
      omega
    exact hbc h1

/-! ## SSTable block reader search (src/lsm-store/sstable/block_reader.go)

The block reader binary-searches its restart-point keys.  `readKeyAt pos`
parses the full key stored at restart offset `pos`; for the search we
model the block by the list of its restart-point keys, so `readKeyAt pos`
is `keys.getD pos []`.  The two search conditions are the Go iota values
`moveUpWhenKeyGTE = 0` and `moveUpWhenKeyGT = 1`, and the loop advances
`low` exactly when `bytes.Compare(searchKey, key) >= int(condition)`. -/

/-- Go `searchCondition` value `moveUpWhenKeyGTE` (iota 0). -/
def moveUpWhenKeyGTE : Int := 0

/-- Go `searchCondition` value `moveUpWhenKeyGT` (iota 1). -/
def moveUpWhenKeyGT : Int := 1

/-- The `for low < high` loop of `blockReader.search`. -/
def blockSearchLoop (keys : List Bytes) (searchKey : Bytes) (condition : Int)
    (low high : Nat) : Nat :=
  if low < high then
    if bytesCompare searchKey (keys.getD ((low + high) / 2) []) ≥ condition then
      blockSearchLoop keys searchKey condition ((low + high) / 2 + 1) high
    else
      blockSearchLoop keys searchKey condition low ((low + high) / 2)
  else low
termination_by high - low
decreasing_by all_goals omega

/-- `blockReader.search`: binary search over the restart-point keys,
starting from `low, high := 0, b.numOffsets`. -/
def blockReaderSearch (keys : List Bytes) (searchKey : Bytes) (condition : Int) : Nat :=
  blockSearchLoop keys searchKey condition 0 keys.length

/-- `r` is the least index `< len` satisfying `p` (and `len` if none is). -/
def isLeastIdxSuchThat (p : Nat → Prop) (len r : Nat) : Prop :=
  r ≤ len ∧ (∀ i, i < r → ¬ p i) ∧ (r < len → p r)

theorem blockSearchLoop_spec (keys : List Bytes) (sk : Bytes) (cond : Int)
    (mono : ∀ i j, i ≤ j → j < keys.length →
      bytesCompare sk (keys.getD i []) < cond → bytesCompare sk (keys.getD j []) < cond) :
    ∀ n low high, high - low ≤ n → low ≤ high → high ≤ keys.length →
      (∀ i, i < low → ¬ bytesCompare sk (keys.getD i []) < cond) →
      (∀ i, high ≤ i → i < keys.length → bytesCompare sk (keys.getD i []) < cond) →
      blockSearchLoop keys sk cond low high ≤ keys.length ∧
      (∀ i, i < blockSearchLoop keys sk cond low high →
        ¬ bytesCompare sk (keys.getD i []) < cond) ∧
      (∀ i, blockSearchLoop keys sk cond low high ≤ i → i < keys.length →
        bytesCompare sk (keys.getD i []) < cond) := by
  intro n
  induction n with
  | zero =>
    intro low high hn hlh hhl hlo hhi
    have heq : low = high := by omega
    subst heq
    rw [blockSearchLoop, if_neg (Nat.lt_irrefl low)]
    exact ⟨hhl, hlo, fun i h1 h2 => hhi i h1 h2⟩
  | succ n ih =>
    intro low high hn hlh hhl hlo hhi
    rw [blockSearchLoop]
    by_cases hlt : low < high
    · rw [if_pos hlt]
      by_cases hc : bytesCompare sk (keys.getD ((low + high) / 2) []) ≥ cond
      · rw [if_pos hc]
        refine ih ((low + high) / 2 + 1) high (by omega) (by omega) hhl ?_ hhi
        intro i hi hstay
        exact absurd (mono i ((low + high) / 2) (by omega) (by omega) hstay) (by omega)
      · rw [if_neg hc]
        refine ih low ((low + high) / 2) (by omega) (by omega) (by omega) hlo ?_
        intro i hmi hil
        exact mono ((low + high) / 2) i hmi hil (by omega)
    · rw [if_neg hlt]
      have heq : low = high := by omega
      subst heq
      exact ⟨hhl, hlo, fun i h1 h2 => hhi i h1 h2⟩

/-- C7, search with `moveUpWhenKeyGTE`: the result is the least index whose
restart key is strictly greater than the search key. -/
theorem blockReaderSearch_GTE_spec (keys : List Bytes) (sk : Bytes)
    (hsorted : List.Pairwise (fun a b => bytesCompare a b ≠ 1) keys) :
    isLeastIdxSuchThat (fun i => bytesCompare (keys.getD i []) sk = 1) keys.length
      (blockReaderSearch keys sk moveUpWhenKeyGTE) := by
  have hmono : ∀ i j, i ≤ j → j < keys.length →
      bytesCompare sk (keys.getD i []) < 0 → bytesCompare sk (keys.getD j []) < 0 := by
    intro i j hij hj hstay
    rcases Nat.eq_or_lt_of_le hij with heq | hij'
    · subst heq; exact hstay
    · have hi : i < keys.length := Nat.lt_trans hij' hj
      have hle : bytesCompare (keys.getD i []) (keys.getD j []) ≠ 1 := by
        have := List.pairwise_iff_getElem.mp hsorted i j hi hj hij'
        rwa [List.getD_eq_getElem keys [] hi, List.getD_eq_getElem keys [] hj]
      have hlt : bytesCompare sk (keys.getD i []) = -1 := by
        rcases bytesCompare_trichotomy sk (keys.getD i []) with h | h | h <;> omega
      have := bytesCompare_lt_of_lt_of_le hlt hle
      omega
  have h := blockSearchLoop_spec keys sk 0 hmono keys.length 0 keys.length
    (by omega) (by omega) (le_refl _) (by omega) (by intro i h1 h2; omega)
  simp only [blockReaderSearch, moveUpWhenKeyGTE]
  refine ⟨h.1, ?_, ?_⟩
  · intro i hi hkey
    refine h.2.1 i hi ?_
    rw [bytesCompare_swap]
    omega
  · intro hr
    have h2 := h.2.2 _ (le_refl _) hr
    rw [bytesCompare_swap] at h2
    rcases bytesCompare_trichotomy (keys.getD (blockSearchLoop keys sk 0 0 keys.length) []) sk
      with h' | h' | h' <;> omega

/-- C7, search with `moveUpWhenKeyGT`: the result is the least index whose
restart key is greater than or equal to the search key. -/
theorem blockReaderSearch_GT_spec (keys : List Bytes) (sk : Bytes)
    (hsorted : List.Pairwise (fun a b => bytesCompare a b ≠ 1) keys) :
    isLeastIdxSuchThat (fun i => bytesCompare (keys.getD i []) sk ≠ -1) keys.length
      (blockReaderSearch keys sk moveUpWhenKeyGT) := by
  have hmono : ∀ i j, i ≤ j → j < keys.length →
      bytesCompare sk (keys.getD i []) < 1 → bytesCompare sk (keys.getD j []) < 1 := by
    intro i j hij hj hstay
    rcases Nat.eq_or_lt_of_le hij with heq | hij'
    · subst heq; exact hstay
    · have hi : i < keys.length := Nat.lt_trans hij' hj
      have hle : bytesCompare (keys.getD i []) (keys.getD j []) ≠ 1 := by
        have := List.pairwise_iff_getElem.mp hsorted i j hi hj hij'
        rwa [List.getD_eq_getElem keys [] hi, List.getD_eq_getElem keys [] hj]
      have hab : bytesCompare sk (keys.getD i []) ≠ 1 := by omega
      have hac := bytesCompare_le_trans hab hle
      rcases bytesCompare_trichotomy sk (keys.getD j []) with h' | h' | h' <;> omega
  have h := blockSearchLoop_spec keys sk 1 hmono keys.length 0 keys.length
    (by omega) (by omega) (le_refl _) (by omega) (by intro i h1 h2; omega)
  simp only [blockReaderSearch, moveUpWhenKeyGT]
  refine ⟨h.1, ?_, ?_⟩
  · intro i hi hkey
    refine h.2.1 i hi ?_
    rw [bytesCompare_swap]
    rcases bytesCompare_trichotomy (keys.getD i []) sk with h' | h' | h' <;> omega
  · intro hr
    have h2 := h.2.2 _ (le_refl _) hr
    rw [bytesCompare_swap] at h2
    rcases bytesCompare_trichotomy (keys.getD (blockSearchLoop keys sk 1 0 keys.length) []) sk
      with h' | h' | h' <;> omega

/-- C7: for every block whose restart-point keys are sorted ascending and every
search key, `blockReader.search` with condition `moveUpWhenKeyGTE` returns the
index of the first restart key strictly greater than the search key, and with
condition `moveUpWhenKeyGT` the index of the first restart key greater than or
equal to the search key; both return `numRestarts` (here `keys.length`) when no
such index exists, as `isLeastIdxSuchThat` forces. -/
theorem claim_C7_search_conditions (keys : List Bytes) (searchKey : Bytes)
    (hsorted : List.Pairwise (fun a b => bytesCompare a b ≠ 1) keys) :
    isLeastIdxSuchThat (fun i => bytesCompare (keys.getD i []) searchKey = 1)
      keys.length (blockReaderSearch keys searchKey moveUpWhenKeyGTE) ∧
    isLeastIdxSuchThat (fun i => bytesCompare (keys.getD i []) searchKey ≠ -1)
      keys.length (blockReaderSearch keys searchKey moveUpWhenKeyGT) :=
  ⟨blockReaderSearch_GTE_spec keys searchKey hsorted,
   blockReaderSearch_GT_spec keys searchKey hsorted⟩

/-- Witness for C7 at the concrete block with restart keys [1], [3], [5] and
search key [3]. -/
theorem claim_C7_search_conditions_witness :
    List.Pairwise (fun a b => bytesCompare a b ≠ 1) [[1], [3], [5]] ∧
    (isLeastIdxSuchThat (fun i => bytesCompare ([[1], [3], [5]].getD i []) [3] = 1)
      3 (blockReaderSearch [[1], [3], [5]] [3] moveUpWhenKeyGTE) ∧
    isLeastIdxSuchThat (fun i => bytesCompare ([[1], [3], [5]].getD i []) [3] ≠ -1)
      3 (blockReaderSearch [[1], [3], [5]] [3] moveUpWhenKeyGT)) :=
  ⟨by decide, claim_C7_search_conditions [[1], [3], [5]] [3] (by decide)⟩

/-! ## Value encoder (src/unnamed/part_005, package encoder)

`Encode(op, val)` prepends the one-byte OpKind; `Parse` splits it back. -/

/-- `OpKindDelete` (iota 0). -/
def OpKindDelete : Nat := 0

/-- `OpKindSet` (iota 1). -/
def OpKindSet : Nat := 1

/-- Go `encoder.EncodedValue`: parsed value plus its OpKind byte. -/
structure EncodedValue where
  val : Bytes
  opKind : Nat
  deriving DecidableEq, Repr

/-- `Encoder.Encode`: one byte of OpKind followed by the payload. -/
def encoderEncode (opKind : Nat) (val : Bytes) : Bytes :=
  opKind :: val

/-- `Encoder.Parse`: first byte is the OpKind, the rest is the payload. -/
def encoderParse (v : Bytes) : EncodedValue :=
  { val := v.tail, opKind := v.headD 0 }

/-- `EncodedValue.IsTombstone`. -/
def EncodedValue.IsTombstone (ev : EncodedValue) : Bool :=
  ev.opKind = OpKindDelete

/-! ## Varint codec (Go encoding/binary, unsigned LEB128)

`binary.PutUvarint` emits base-128 little-endian digits with the
continuation bit set on all but the last byte; `binary.Uvarint` reads
them back, returning 0 bytes read when the buffer ends mid-varint.
`putUvarint`'s recursion on `x / 128` is realised with a fuel argument
(`fuel = x` suffices because `x / 128 < x` for `x ≥ 128`) so that the
function is structurally recursive and evaluates inside the kernel. -/

def putUvarintAux : Nat → Nat → List Nat
  | 0, x => [x % 128]
  | fuel + 1, x =>
    if x < 128 then [x] else (x % 128 + 128) :: putUvarintAux fuel (x / 128)

/-- Go `binary.PutUvarint` output bytes for value `x`. -/
def putUvarint (x : Nat) : List Nat :=
  putUvarintAux x x

theorem putUvarintAux_fuel (f1 : Nat) : ∀ f2 x, (x ≤ f1 ∨ x < 128) → (x ≤ f2 ∨ x < 128) →
    putUvarintAux f1 x = putUvarintAux f2 x := by
  induction f1 with
  | zero =>
    intro f2 x h1 h2
    have hx : x < 128 := by omega
    cases f2 with
    | zero => rfl
    | succ f2 => simp [putUvarintAux, hx, Nat.mod_eq_of_lt hx]
  | succ f1 ih =>
    intro f2 x h1 h2
    by_cases hx : x < 128
    · cases f2 with
      | zero => simp [putUvarintAux, hx, Nat.mod_eq_of_lt hx]
      | succ f2 => simp [putUvarintAux, hx]
    · have hf2 : x ≤ f2 := by omega
      cases f2 with
      | zero => omega
      | succ f2 =>
        rw [putUvarintAux, putUvarintAux, if_neg hx, if_neg hx]
        have hdiv : x / 128 < x := Nat.div_lt_self (by omega) (by omega)
        rw [ih f2 (x / 128) (by omega) (by omega)]

/-- Unfolding equation for `putUvarint` matching the Go loop
`for x >= 0x80 { ... }`. -/
theorem putUvarint_eq (x : Nat) :
    putUvarint x = if x < 128 then [x] else (x % 128 + 128) :: putUvarint (x / 128) := by
  by_cases hx : x < 128
  · rw [if_pos hx, putUvarint]
    cases x with
    | zero => rfl
    | succ y => simp [putUvarintAux, hx]
  · rw [if_neg hx, putUvarint]
    have hdiv : x / 128 < x := Nat.div_lt_self (by omega) (by omega)
    have h1 : putUvarintAux x x = putUvarintAux (x - 1 + 1) x := by
      have h2 : x - 1 + 1 = x := by omega
      rw [h2]
    rw [h1, putUvarintAux, if_neg hx, putUvarint,
      putUvarintAux_fuel (x - 1) (x / 128) (x / 128) (by omega) (Or.inl (le_refl _))]

/-- Go `binary.Uvarint`: returns (value, bytesRead); bytesRead = 0 when the
buffer ends before the varint is complete. -/
def uvarintGo : Bytes → Nat × Nat
  | [] => (0, 0)
  | b :: rest =>
    if b < 128 then (b, 1)
    else
      match uvarintGo rest with
      | (_, 0) => (0, 0)
      | (v, n) => (b - 128 + 128 * v, n + 1)

theorem bytesCompare_lt_of_le_of_lt {a b c : Bytes}
    (hab : bytesCompare a b ≠ 1) (hbc : bytesCompare b c = -1) :
    bytesCompare a c = -1 := by
  have hbc' : bytesCompare b c ≠ 1 := by rw [hbc]; decide
  have hac := bytesCompare_le_trans hab hbc'
  rcases bytesCompare_ne_one_iff.mp hac with h | h
  · exact h
  · exfalso
    have hca : a = c := bytesCompare_eq_zero_iff.mp h
    subst hca
    -- b < a and a ≤ b: contradiction via swap
    have hs := bytesCompare_swap a b
    have h1 : bytesCompare a b = 1 := by omega
    exact hab h1

/-! ## SSTable reader sequential scan (src/lsm-store/sstable/reader.go 189-215)

`Reader.sequentialSearchBuf` walks one (uncompressed) data region entry by
entry: uvarint key length, uvarint value length, key bytes, value bytes;
returns the parsed value on an exact match, key-not-found (`none`) when the
search key is smaller than the current key or the region is exhausted. -/

def sequentialSearchBuf (buf : Bytes) (searchKey : Bytes) : Option EncodedValue :=
  if h : (uvarintGo buf).2 = 0 then none  -- n <= 0: end of region
  else
    let keyLen := (uvarintGo buf).1
    let rest1 := buf.drop (uvarintGo buf).2
    let valLen := (uvarintGo rest1).1
    let rest2 := rest1.drop (uvarintGo rest1).2
    let key := rest2.take keyLen
    let rest3 := rest2.drop keyLen
    let val := rest3.take valLen
    if bytesCompare searchKey key = 0 then some (encoderParse val)
    else if bytesCompare searchKey key < 0 then none  -- sorted: key not present
    else sequentialSearchBuf (rest3.drop valLen) searchKey
termination_by buf.length
decreasing_by
  simp only [List.length_drop]
  have hne : buf ≠ [] := by
    intro he
    rw [he] at h
    exact h rfl
  have hlen : 0 < buf.length := List.length_pos.mpr hne
  omega

/-! ## SST reader point lookup (spec §4.8)

Modelled from the spec: the final `Reader.Get` / `Reader.binarySearch` with
the `pos ≥ numRestarts` rejection is code of this repository that is not
under src/ — src's `sstable/reader.go` is an earlier snapshot whose
one-argument `index.search(searchKey)` call does not type-check against
src's `block_reader.go` two-argument `search`, and it lacks the rejection
step.  Following spec §4.8 steps 3-7: search the index block (whose restart
keys are the full per-data-block largest keys, chunkSize = 1) with
`moveUpWhenKeyGT`; if `pos ≥ numRestarts` return ErrKeyNotFound (`none`);
otherwise scan the data block at `pos` with src's
`Reader.sequentialSearchBuf`. -/

/-- An SST file, abstracted to its index-block restart keys and the
decompressed data-block bodies (one per index entry). -/
structure SstFileModel where
  indexKeys : List Bytes
  dataBlocks : List Bytes

/-- Modelled from the spec (§4.8): the final SST reader `Get`. -/
def readerGet (f : SstFileModel) (searchKey : Bytes) : Option EncodedValue :=
  let pos := blockReaderSearch f.indexKeys searchKey moveUpWhenKeyGT
  if pos ≥ f.indexKeys.length then none  -- ErrKeyNotFound
  else sequentialSearchBuf (f.dataBlocks.getD pos []) searchKey

/-- C5: for every well-formed SST file (sorted index keys) and every search
key strictly greater than the largest key stored in the file, the reader's
Get returns key-not-found: the index search position reaches `numRestarts`
and the lookup is rejected. -/
theorem claim_C5_get_beyond_largest_key (f : SstFileModel) (searchKey : Bytes)
    (hsorted : List.Pairwise (fun a b => bytesCompare a b ≠ 1) f.indexKeys)
    (hne : f.indexKeys ≠ [])
    (hgt : bytesCompare searchKey (f.indexKeys.getLastD []) = 1) :
    readerGet f searchKey = none := by
  have hall : ∀ i, i < f.indexKeys.length →
      bytesCompare (f.indexKeys.getD i []) searchKey = -1 := by
    intro i hi
    have hlast : f.indexKeys.getLastD [] = f.indexKeys.getD (f.indexKeys.length - 1) [] := by
      have hlen : f.indexKeys.length - 1 < f.indexKeys.length := by
        have := List.length_pos.mpr hne
        omega
      rw [List.getD_eq_getElem f.indexKeys [] hlen, ← List.getLast_eq_getElem f.indexKeys hne]
      simp [List.getLastD_eq_getLast?, List.getLast?_eq_getLast_of_ne_nil hne]
    have hlt : bytesCompare (f.indexKeys.getLastD []) searchKey = -1 := by
      have hs := bytesCompare_swap searchKey (f.indexKeys.getLastD [])
      omega
    rcases Nat.lt_or_ge i (f.indexKeys.length - 1) with hi' | hi'
    · have hle : bytesCompare (f.indexKeys.getD i []) (f.indexKeys.getLastD []) ≠ 1 := by
        rw [hlast]
        have hj : f.indexKeys.length - 1 < f.indexKeys.length := by
          have := List.length_pos.mpr hne
          omega
        have := List.pairwise_iff_getElem.mp hsorted i (f.indexKeys.length - 1) hi hj hi'
        rwa [List.getD_eq_getElem f.indexKeys [] hi, List.getD_eq_getElem f.indexKeys [] hj]
      exact bytesCompare_lt_of_le_of_lt hle hlt
    · have heq : i = f.indexKeys.length - 1 := by omega
      rw [heq, ← hlast]
      exact hlt
  have hspec := blockReaderSearch_GT_spec f.indexKeys searchKey hsorted
  rw [readerGet]
  have hpos : blockReaderSearch f.indexKeys searchKey moveUpWhenKeyGT ≥
      f.indexKeys.length := by
    by_contra hlt
    push_neg at hlt
    have hp := hspec.2.2 hlt
    exact hp (hall _ hlt)
  rw [if_pos hpos]

/-- Witness for C5 at a concrete two-block SST whose largest key is [4],
searched with key [5]. -/
theorem claim_C5_get_beyond_largest_key_witness :
    List.Pairwise (fun a b => bytesCompare a b ≠ 1) ([[2], [4]] : List Bytes) ∧
    ([[2], [4]] : List Bytes) ≠ [] ∧
    bytesCompare [5] (([[2], [4]] : List Bytes).getLastD []) = 1 ∧
    readerGet ⟨[[2], [4]], [[0, 1, 1, 2, 1, 7], [0, 1, 1, 4, 1, 9]]⟩ [5] = none :=
  ⟨by decide, by decide, by decide,
   claim_C5_get_beyond_largest_key ⟨[[2], [4]], [[0, 1, 1, 2, 1, 7], [0, 1, 1, 4, 1, 9]]⟩
     [5] (by decide) (by decide) (by decide)⟩

/-! ## SSTable block writer (src/unnamed/part_000, package sstable)

Prefix-compressed block writer: each entry appends
`uvarint(sharedLen) || uvarint(keyLen - sharedLen) || uvarint(valLen) ||
key[sharedLen:] || val`; after every `chunkSize` entries the starting
offset of the chunk is recorded as a restart point and the prefix key is
cleared.  Offsets are uint32, so additions are taken mod 2^32. -/

structure BlockWriter where
  buf : Bytes
  offsets : List Nat
  currOffset : Nat
  nextOffset : Nat
  chunkSize : Nat
  numEntries : Nat
  prefixKey : Option Bytes
  deriving DecidableEq, Repr

/-- `newBlockWriter(chunkSize)`. -/
def newBlockWriter (chunkSize : Nat) : BlockWriter :=
  { buf := [], offsets := [], currOffset := 0, nextOffset := 0,
    chunkSize := chunkSize, numEntries := 0, prefixKey := none }

/-- The `for i := 0; i < min(len(key), len(b.prefixKey)); i++` loop of
`calculateSharedLength`: count equal leading bytes. -/
def sharedLenLoop : Bytes → Bytes → Nat
  | k :: ks, p :: ps => if k = p then sharedLenLoop ks ps + 1 else 0
  | _, _ => 0

/-- `blockWriter.calculateSharedLength`: 0 (recording the key as the chunk's
prefix key) when no prefix key is set, else the common-prefix length. -/
def calculateSharedLength (b : BlockWriter) (key : Bytes) : Nat × BlockWriter :=
  match b.prefixKey with
  | none => (0, { b with prefixKey := some key })
  | some pk => (sharedLenLoop key pk, b)

/-- `blockWriter.trackOffset`. -/
def trackOffset (b : BlockWriter) (n : Nat) : BlockWriter :=
  let b1 := { b with nextOffset := (b.nextOffset + n) % 2 ^ 32 }
  if b1.numEntries = b1.chunkSize then
    { b1 with
      offsets := b1.offsets ++ [b1.currOffset]
      currOffset := b1.nextOffset
      numEntries := 0
      prefixKey := none }
  else b1

/-- `blockWriter.add`: append one prefix-compressed entry, then
`numEntries++` and `trackOffset(uint32(n))`. -/
def blockWriterAdd (b : BlockWriter) (key val : Bytes) : BlockWriter × Nat :=
  let sb := calculateSharedLength b key
  let sharedLen := sb.1
  let b1 := sb.2
  let entry := putUvarint sharedLen ++ putUvarint (key.length - sharedLen) ++
    putUvarint val.length ++ key.drop sharedLen ++ val
  let n := entry.length
  let b2 := { b1 with buf := b1.buf ++ entry, numEntries := b1.numEntries + 1 }
  (trackOffset b2 (n % 2 ^ 32), n)

/-- The shared length `blockWriter.add` uses for `key` in state `b`. -/
def sharedOf (b : BlockWriter) (key : Bytes) : Nat :=
  match b.prefixKey with
  | none => 0
  | some pk => sharedLenLoop key pk

/-- `sharedLenLoop` computes a common prefix: the first `sharedLenLoop k p`
bytes of `k` and `p` agree. -/
theorem sharedLenLoop_take (k p : Bytes) :
    k.take (sharedLenLoop k p) = p.take (sharedLenLoop k p) := by
  induction k generalizing p with
  | nil => cases p <;> simp [sharedLenLoop]
  | cons x ks ih =>
    cases p with
    | nil => simp [sharedLenLoop]
    | cons y ps =>
      by_cases hxy : x = y
      · subst hxy
        simp [sharedLenLoop, ih ps]
      · simp [sharedLenLoop, hxy]

/-- `sharedLenLoop` computes the longest common prefix: any in-range common
prefix length is at most `sharedLenLoop k p`. -/
theorem sharedLenLoop_longest (k p : Bytes) :
    ∀ m, m ≤ k.length → m ≤ p.length → k.take m = p.take m → m ≤ sharedLenLoop k p := by
  induction k generalizing p with
  | nil => intro m hm _ _; simp at hm; omega
  | cons x ks ih =>
    intro m hmk hmp htake
    cases p with
    | nil => simp at hmp; omega
    | cons y ps =>
      cases m with
      | zero => omega
      | succ m' =>
        simp only [List.take_succ_cons, List.cons.injEq] at htake
        have hxy : x = y := htake.1
        subst hxy
        have hs : sharedLenLoop (x :: ks) (x :: ps) = sharedLenLoop ks ps + 1 := by
          simp [sharedLenLoop]
        rw [hs]
        have := ih ps m' (by simpa using hmk) (by simpa using hmp) htake.2
        omega

/-- Add a list of (key, value) entries to a block writer, in order. -/
def blockWriterAddAll (b : BlockWriter) (kvs : List (Bytes × Bytes)) : BlockWriter :=
  kvs.foldl (fun b kv => (blockWriterAdd b kv.1 kv.2).1) b

/-- The 17 entries ([0],[0]), ([1],[1]), …, ([16],[16]), sorted ascending. -/
def entries17 : List (Bytes × Bytes) :=
  (List.range 17).map (fun i => ([i], [i]))

/-- C8: every `blockWriter.add` appends exactly
`uvarint(sharedLen) || uvarint(keyLen - sharedLen) || uvarint(valueLen) ||
key-suffix || value`, where `sharedLen` is the length of the longest common
prefix with the first key of the current chunk (0 when the entry starts a
chunk); after every `chunkSize` entries a restart offset is recorded, and
with `chunkSize = 16` exactly 16 entries occupy one chunk with one restart
point while the 17th entry starts a new restart. -/
theorem claim_C8_blockWriter_add (b : BlockWriter) (key val : Bytes) :
    ((blockWriterAdd b key val).1.buf =
      b.buf ++ putUvarint (sharedOf b key) ++ putUvarint (key.length - sharedOf b key) ++
      putUvarint val.length ++ key.drop (sharedOf b key) ++ val) ∧
    (b.prefixKey = none → sharedOf b key = 0) ∧
    (∀ pk, b.prefixKey = some pk →
      key.take (sharedOf b key) = pk.take (sharedOf b key) ∧
      ∀ m, m ≤ key.length → m ≤ pk.length → key.take m = pk.take m → m ≤ sharedOf b key) ∧
    (b.numEntries + 1 = b.chunkSize →
      (blockWriterAdd b key val).1.offsets = b.offsets ++ [b.currOffset] ∧
      (blockWriterAdd b key val).1.numEntries = 0 ∧
      (blockWriterAdd b key val).1.prefixKey = none) ∧
    (b.numEntries + 1 ≠ b.chunkSize →
      (blockWriterAdd b key val).1.offsets = b.offsets ∧
      (blockWriterAdd b key val).1.numEntries = b.numEntries + 1) ∧
    ((blockWriterAddAll (newBlockWriter 16) (entries17.take 16)).offsets = [0] ∧
     (blockWriterAddAll (newBlockWriter 16) (entries17.take 16)).numEntries = 0 ∧
     (blockWriterAddAll (newBlockWriter 16) (entries17.take 16)).prefixKey = none ∧
     (blockWriterAddAll (newBlockWriter 16) entries17).offsets = [0] ∧
     (blockWriterAddAll (newBlockWriter 16) entries17).numEntries = 1 ∧
     (blockWriterAddAll (newBlockWriter 16) entries17).prefixKey = some [16] ∧
     (blockWriterAddAll (newBlockWriter 16) entries17).currOffset =
       (blockWriterAddAll (newBlockWriter 16) (entries17.take 16)).buf.length) := by
  refine ⟨?_, ?_, ?_, ?_, ?_, by decide⟩
  · rcases hpk : b.prefixKey with _ | pk
    · simp only [blockWriterAdd, calculateSharedLength, hpk, sharedOf, trackOffset]
      split <;> simp [List.append_assoc]
    · simp only [blockWriterAdd, calculateSharedLength, hpk, sharedOf, trackOffset]
      split <;> simp [List.append_assoc]
  · intro hpk
    simp [sharedOf, hpk]
  · intro pk hpk
    simp only [sharedOf, hpk]
    exact ⟨sharedLenLoop_take key pk, sharedLenLoop_longest key pk⟩
  · intro hfull
    rcases hpk : b.prefixKey with _ | pk <;>
      simp [blockWriterAdd, calculateSharedLength, hpk, trackOffset, hfull]
  · intro hnotfull
    rcases hpk : b.prefixKey with _ | pk <;>
      simp [blockWriterAdd, calculateSharedLength, hpk, trackOffset, hnotfull]

/-- Witness for C8 at a concrete state: a writer with chunk size 2 holding one
entry of its current chunk (prefix key [1, 2]) receives a second entry, which
completes the chunk and records restart offset `currOffset = 0`. -/
theorem claim_C8_blockWriter_add_witness :
    (⟨[5, 5], [], 0, 2, 2, 1, some [1, 2]⟩ : BlockWriter).numEntries + 1 =
      (⟨[5, 5], [], 0, 2, 2, 1, some [1, 2]⟩ : BlockWriter).chunkSize ∧
    (blockWriterAdd ⟨[5, 5], [], 0, 2, 2, 1, some [1, 2]⟩ [1, 3] [9]).1.offsets = [] ++ [0] ∧
    (blockWriterAdd ⟨[5, 5], [], 0, 2, 2, 1, some [1, 2]⟩ [1, 3] [9]).1.numEntries = 0 ∧
    (blockWriterAdd ⟨[5, 5], [], 0, 2, 2, 1, some [1, 2]⟩ [1, 3] [9]).1.prefixKey = none :=
  ⟨by decide,
   (claim_C8_blockWriter_add ⟨[5, 5], [], 0, 2, 2, 1, some [1, 2]⟩ [1, 3] [9]).2.2.2.1
     (by decide)⟩

/-! ## WAL writer (src/lsm-store/wal/writer.go)

The writer splits a record payload
`uvarint(keyLen) || uvarint(valLen) || key || encodedValue`
into chunks of a 4096-byte block: seal (zero-pad, write+sync) when fewer
than `headerSize+1 = 4` bytes remain, copy as much payload as fits after a
3-byte header `uint16 dataLen || uint8 chunkType`, pick the chunk type from
the block fullness *after* the copy, and write+sync the chunk region.

Chunk types: FULL=1, FIRST=2, MIDDLE=3, LAST=4.

The `for chunk := 0; len(scratch) > 0; chunk++` loop is realised with a
fuel argument (`fuel = len(scratch) + 1` suffices since every iteration
consumes at least one payload byte).  A fault `some (c, e)` makes the
write+sync of chunk number `c` fail with error id `e` (the chunk's bytes
were handed to `Write` but `Sync` failed, so they stay in the modelled
file); `none` means all I/O succeeds. -/

/-- `binary.LittleEndian.PutUint16`. -/
def putUint16LE (n : Nat) : List Nat :=
  [n % 256, n / 256 % 256]

/-- The WAL writer's state: cursor inside the current 4096-byte block, and
the bytes written (and synced or attempted) to the log file so far. -/
structure WalWriter where
  blockOffset : Nat
  file : List Nat
  deriving DecidableEq, Repr

/-- The chunk-splitting loop of `Writer.record`.  Returns
`(error?, blockOffset, file, chunkTypes)`. -/
def walRecordLoopAux : Nat → Nat → List Nat → List Nat → Nat → Option (Nat × Nat) →
    Option Nat × Nat × List Nat × List Nat
  | 0, bo, file, _, _, _ => (none, bo, file, [])
  | fuel + 1, bo, file, scratch, chunk, fault =>
    if scratch.length = 0 then (none, bo, file, [])
    else
      -- seal the block if it cannot hold a header plus one payload byte
      let bo1 := if bo + 3 ≥ 4096 then 0 else bo
      let file1 := if bo + 3 ≥ 4096 then file ++ List.replicate (4096 - bo) 0 else file
      -- copy as much payload as fits
      let dataLen := min scratch.length (4096 - bo1 - 3)
      let newBo := bo1 + dataLen + 3
      -- chunk type from block fullness after the copy
      let ctype := if newBo < 4096 then (if chunk = 0 then 1 else 4)
                   else (if chunk = 0 then 2 else 3)
      let file2 := file1 ++ putUint16LE dataLen ++ [ctype] ++ scratch.take dataLen
      match fault, walRecordLoopAux fuel newBo file2 (scratch.drop dataLen) (chunk + 1) fault with
      | some (fc, e), r =>
        if fc = chunk then (some e, newBo, file2, [ctype])
        else (r.1, r.2.1, r.2.2.1, ctype :: r.2.2.2)
      | none, r => (r.1, r.2.1, r.2.2.1, ctype :: r.2.2.2)

/-- `Writer.record`: build the payload, split it into chunks.  Returns
`(error?, writer, chunk types emitted)`. -/
def walRecord (w : WalWriter) (key val : Bytes) (fault : Option (Nat × Nat)) :
    Option Nat × WalWriter × List Nat :=
  let scratch := putUvarint key.length ++ putUvarint val.length ++ key ++ val
  let r := walRecordLoopAux (scratch.length + 1) w.blockOffset w.file scratch 0 fault
  (r.1, ⟨r.2.1, r.2.2.1⟩, r.2.2.2)

/-- `Writer.RecordInsertion`. -/
def walRecordInsertion (w : WalWriter) (key val : Bytes) (fault : Option (Nat × Nat)) :
    Option Nat × WalWriter × List Nat :=
  walRecord w key (encoderEncode OpKindSet val) fault

/-- `Writer.RecordDeletion`. -/
def walRecordDeletion (w : WalWriter) (key : Bytes) (fault : Option (Nat × Nat)) :
    Option Nat × WalWriter × List Nat :=
  walRecord w key (encoderEncode OpKindDelete []) fault

/-- `Writer.Close`: seal the trailing block (zero-pad to 4096) and close. -/
def walWriterClose (w : WalWriter) : WalWriter :=
  { blockOffset := 0, file := w.file ++ List.replicate (4096 - w.blockOffset) 0 }

/-- The chunk-type regular expression `FULL | (FIRST MIDDLE* LAST)`:
helper recognising `MIDDLE* LAST`. -/
def isMiddleStarLast : List Nat → Bool
  | [4] => true
  | 3 :: rest => isMiddleStarLast rest
  | _ => false

/-- Whether a chunk-type sequence matches `FULL | (FIRST MIDDLE* LAST)`. -/
def chunkSeqMatches (ts : List Nat) : Bool :=
  ts == [1] ||
    (match ts with
     | 2 :: rest => isMiddleStarLast rest
     | _ => false)

theorem walRecordLoopAux_nil (fuel bo : Nat) (file : List Nat) (chunk : Nat)
    (fault : Option (Nat × Nat)) :
    walRecordLoopAux fuel bo file [] chunk fault = (none, bo, file, []) := by
  cases fuel with
  | zero => rfl
  | succ fuel => rw [walRecordLoopAux]; simp

/-- One step of the chunk loop, fault-free, when the whole remaining payload
exactly fills the block: the emitted chunk is typed FIRST (chunk 0) or
MIDDLE, and the loop ends because the payload is exhausted. -/
theorem walRecordLoopAux_exactFill (fuel bo : Nat) (file scratch : List Nat) (chunk : Nat)
    (h3 : bo + 3 < 4096) (hfit : scratch.length = 4096 - bo - 3) (hne : scratch.length ≠ 0) :
    walRecordLoopAux (fuel + 1) bo file scratch chunk none =
      (none, 4096, file ++ putUint16LE scratch.length ++
        [if chunk = 0 then 2 else 3] ++ scratch, [if chunk = 0 then 2 else 3]) := by
  rw [walRecordLoopAux]
  rw [if_neg hne]
  have hseal : ¬ (bo + 3 ≥ 4096) := by omega
  simp only [hseal, ite_false, if_neg hseal]
  have hmin : min scratch.length (4096 - bo - 3) = scratch.length := by omega
  simp only [hmin]
  have hbo : bo + scratch.length + 3 = 4096 := by omega
  simp only [hbo]
  have hnotlt : ¬ (4096 < 4096) := by omega
  simp only [hnotlt, ite_false, if_neg hnotlt]
  have htake : scratch.take scratch.length = scratch := List.take_length scratch
  have hdrop : scratch.drop scratch.length = [] := List.drop_length scratch
  rw [htake, hdrop, walRecordLoopAux_nil]

/-- Fault-free evaluation of `Writer.record` on a fresh writer for the record
with key `[107]` and encoded value `SET || 1^4088` (payload length 4093 =
4096 - 3): the single chunk exactly fills the block, so it is typed
FIRST (2) even though it is the whole record. -/
theorem walRecord_exactFill_eval :
    walRecord ⟨0, []⟩ [107] (encoderEncode OpKindSet (List.replicate 4088 1)) none =
      (none,
       ⟨4096, 253 :: 15 :: 2 :: 1 :: 249 :: 31 :: 107 ::
         encoderEncode OpKindSet (List.replicate 4088 1)⟩,
       [2]) := by
  have hvlen : (encoderEncode OpKindSet (List.replicate 4088 1)).length = 4089 := by
    show (OpKindSet :: List.replicate 4088 1).length = 4089
    rw [List.length_cons, List.length_replicate]
  have hpu1 : putUvarint 1 = [1] := by decide
  have hpu4089 : putUvarint 4089 = [249, 31] := by decide
  simp only [walRecord, List.length_cons, List.length_nil, hvlen, hpu1, hpu4089]
  have hslen : (([1] : List Nat) ++ [249, 31] ++ [107] ++
      encoderEncode OpKindSet (List.replicate 4088 1)).length = 4093 := by
    simp only [List.length_append, List.length_cons, List.length_nil, hvlen]
  rw [hslen]
  rw [walRecordLoopAux_exactFill 4093 0 []
    ([1] ++ [249, 31] ++ [107] ++ encoderEncode OpKindSet (List.replicate 4088 1)) 0
    (by omega) (by rw [hslen]) (by rw [hslen]; omega)]
  rw [hslen]
  have hput : putUint16LE 4093 = [253, 15] := by decide
  rw [hput]
  simp only [List.cons_append, List.nil_append]
  norm_num

/-- C3 (refuting the claim on the code): writing the record with key `[107]`
and 4088-byte SET payload on a fresh writer succeeds, and the writer emits
the chunk-type sequence `[FIRST]` — a complete record whose only chunk
exactly fills the 4096-byte block is typed FIRST, not FULL, so the sequence
does not match `FULL | (FIRST MIDDLE* LAST)`. -/
theorem claim_C3_chunk_type_regex_violated :
    (walRecordInsertion ⟨0, []⟩ [107] (List.replicate 4088 1) none).1 = none ∧
    (walRecordInsertion ⟨0, []⟩ [107] (List.replicate 4088 1) none).2.2 = [2] ∧
    chunkSeqMatches
      (walRecordInsertion ⟨0, []⟩ [107] (List.replicate 4088 1) none).2.2 = false := by
  have h := walRecord_exactFill_eval
  rw [walRecordInsertion, h]
  refine ⟨rfl, rfl, by decide⟩

/-! ## WAL reader (src/lsm-store/wal/reader.go)

`Reader.Next` loads 4096-byte blocks (a short final read is tolerated),
walks chunks, reassembles the payload in a scratch buffer until a chunk of
type FULL or LAST arrives, then parses
`uvarint keyLen || uvarint valLen || key || encodedValue`.

All of the Go error outcomes (`io.EOF` from the first load, the
offset-past-length EOF, a failed load of a sealed block's successor, and
the truncation error when a record's continuation is missing) are
modelled as `none`.  The chunk loop is realised with a fuel argument
(each iteration past the first consumes a 4096-byte block from the file,
so `file.length + 2` suffices).  Go's `scratch[a:b]` slicing panics
out-of-range; well-formed inputs never reach that case and the model
truncates instead. -/

structure WalReaderSt where
  file : List Nat
  buf : List Nat
  len : Nat
  offset : Nat
  loaded : Bool
  deriving DecidableEq, Repr

/-- A fresh reader over a log file's bytes (`blockNum = -1`). -/
def newWalReader (file : List Nat) : WalReaderSt :=
  { file := file, buf := [], len := 0, offset := 0, loaded := false }

/-- `Reader.loadNextBlock`: `io.ReadFull` into the 4096-byte block buffer;
a short read at the tail is accepted, zero bytes is `io.EOF` (`none`). -/
def walLoadNextBlock (r : WalReaderSt) : Option WalReaderSt :=
  if r.file.length = 0 then none
  else some { file := r.file.drop 4096, buf := r.file.take 4096,
              len := min 4096 r.file.length, offset := 0, loaded := true }

/-- `binary.LittleEndian.Uint16` read at index `i`. -/
def getUint16LE (l : List Nat) (i : Nat) : Nat :=
  l.getD i 0 + 256 * l.getD (i + 1) 0

/-- The chunk-reassembly loop of `Reader.Next`. -/
def walChunkLoopAux : Nat → WalReaderSt → List Nat → Option (List Nat × WalReaderSt)
  | 0, _, _ => none
  | fuel + 1, r, scratch =>
    let dataLen := getUint16LE r.buf r.offset
    let ctype := r.buf.getD (r.offset + 2) 0
    let scratch1 := scratch ++ (r.buf.drop (r.offset + 3)).take dataLen
    let r1 : WalReaderSt := { r with offset := r.offset + 3 + dataLen }
    if ctype = 1 ∨ ctype = 4 then some (scratch1, r1)
    else
      match walLoadNextBlock r1 with
      | none => none
      | some r2 => walChunkLoopAux fuel r2 scratch1

/-- `Reader.Next`: yield the next `(key, parsed encoded value)`, or `none`
for EOF / truncation. -/
def walNext (r : WalReaderSt) : Option ((Bytes × EncodedValue) × WalReaderSt) :=
  match (if r.loaded then some r else walLoadNextBlock r) with
  | none => none
  | some r1 =>
    if r1.offset ≥ r1.len then none
    else
      match (if r1.len - r1.offset ≤ 3 then walLoadNextBlock r1 else some r1) with
      | none => none
      | some r2 =>
        match walChunkLoopAux (r2.file.length + 2) r2 [] with
        | none => none
        | some (scratch, r3) =>
          let kl := uvarintGo scratch
          let vl := uvarintGo (scratch.drop kl.2)
          let key := (scratch.drop (kl.2 + vl.2)).take kl.1
          some ((key, encoderParse (scratch.drop (kl.2 + vl.2 + kl.1))), r3)

/-- C4 (refuting round-trip on the code): writing the single record with key
`[107]` and 4088-byte SET payload and closing the writer yields a log file
from which `Reader.Next` immediately returns EOF — the record is lost,
because its only chunk was typed FIRST (exact block fill) and the reader
keeps looking for a LAST chunk past the end of the file. -/
theorem claim_C4_roundtrip_lost_record :
    (walRecordInsertion ⟨0, []⟩ [107] (List.replicate 4088 1) none).1 = none ∧
    walNext (newWalReader (walWriterClose
      (walRecordInsertion ⟨0, []⟩ [107] (List.replicate 4088 1) none).2.1).file) = none := by
  rw [walRecordInsertion, walRecord_exactFill_eval]
  refine ⟨rfl, ?_⟩
  have hvlen : (encoderEncode OpKindSet (List.replicate 4088 1)).length = 4089 := by
    show (OpKindSet :: List.replicate 4088 1).length = 4089
    rw [List.length_cons, List.length_replicate]
  have hclose : (walWriterClose ⟨4096, 253 :: 15 :: 2 :: 1 :: 249 :: 31 :: 107 ::
      encoderEncode OpKindSet (List.replicate 4088 1)⟩).file =
      253 :: 15 :: 2 :: 1 :: 249 :: 31 :: 107 ::
        encoderEncode OpKindSet (List.replicate 4088 1) := by
    rw [walWriterClose]
    norm_num
  rw [hclose]
  have hFlen : (253 :: 15 :: 2 :: 1 :: 249 :: 31 :: 107 ::
      encoderEncode OpKindSet (List.replicate 4088 1) : List Nat).length = 4096 := by
    simp only [List.length_cons, hvlen]
  have hdropF : (253 :: 15 :: 2 :: 1 :: 249 :: 31 :: 107 ::
      encoderEncode OpKindSet (List.replicate 4088 1) : List Nat).drop 4096 = [] := by
    apply List.drop_eq_nil_of_le
    rw [hFlen]
  have htakeF : (253 :: 15 :: 2 :: 1 :: 249 :: 31 :: 107 ::
      encoderEncode OpKindSet (List.replicate 4088 1) : List Nat).take 4096 =
      253 :: 15 :: 2 :: 1 :: 249 :: 31 :: 107 ::
        encoderEncode OpKindSet (List.replicate 4088 1) := by
    apply List.take_of_length_le
    rw [hFlen]
  have hload : walLoadNextBlock ⟨253 :: 15 :: 2 :: 1 :: 249 :: 31 :: 107 ::
      encoderEncode OpKindSet (List.replicate 4088 1), [], 0, 0, false⟩ =
      some ⟨[], 253 :: 15 :: 2 :: 1 :: 249 :: 31 :: 107 ::
        encoderEncode OpKindSet (List.replicate 4088 1), 4096, 0, true⟩ := by
    rw [walLoadNextBlock]
    rw [if_neg (by rw [hFlen]; omega)]
    rw [hdropF, htakeF, hFlen]
    norm_num
  have hload2 : walLoadNextBlock ⟨[], 253 :: 15 :: 2 :: 1 :: 249 :: 31 :: 107 ::
      encoderEncode OpKindSet (List.replicate 4088 1), 4096, 0 + 3 + 4093, true⟩ = none := by
    rw [walLoadNextBlock]
    simp
  have hchunk : walChunkLoopAux 2
      ⟨[], 253 :: 15 :: 2 :: 1 :: 249 :: 31 :: 107 ::
        encoderEncode OpKindSet (List.replicate 4088 1), 4096, 0, true⟩ [] = none := by
    rw [show (2 : Nat) = 1 + 1 from rfl, walChunkLoopAux]
    have hd : getUint16LE (253 :: 15 :: 2 :: 1 :: 249 :: 31 :: 107 ::
        encoderEncode OpKindSet (List.replicate 4088 1)) 0 = 4093 := by
      rw [getUint16LE]
      simp only [List.getD_cons_zero, List.getD_cons_succ]
    have hct : (253 :: 15 :: 2 :: 1 :: 249 :: 31 :: 107 ::
        encoderEncode OpKindSet (List.replicate 4088 1) : List Nat).getD (0 + 2) 0 = 2 := by
      simp only [List.getD_cons_zero, List.getD_cons_succ]
    simp only [hd, hct]
    rw [if_neg (by decide)]
    rw [hload2]
  simp only [walNext, newWalReader]
  rw [if_neg (by decide), hload]
  dsimp only
  rw [if_neg (by omega), if_neg (by omega)]
  dsimp only
  simp only [List.length_nil, Nat.zero_add]
  rw [hchunk]

/-! ## Memtable (src/lsm-store/memtable/memtable.go)

The memtable wraps the skiplist (an ordered map with upsert semantics —
`SkipList.Insert` replaces the value of an existing key); for the engine
claims only the map contents matter, so entries are an association list
with upsert.  `sizeUsed`/`sizeLimit` and the WAL back-reference `logMeta`
follow the source. -/

structure Memtable where
  entries : List (Bytes × Bytes)
  sizeUsed : Nat
  sizeLimit : Nat
  logFm : Nat
  deriving DecidableEq, Repr

/-- `NewMemtable(sizeLimit, logMeta)`. -/
def newMemtable (sizeLimit logFm : Nat) : Memtable :=
  { entries := [], sizeUsed := 0, sizeLimit := sizeLimit, logFm := logFm }

/-- `Memtable.HasRoomForWrite`: `len(key) + len(val) + 1 <= sizeLimit - sizeUsed`. -/
def hasRoomForWrite (m : Memtable) (key val : Bytes) : Bool :=
  key.length + val.length + 1 ≤ m.sizeLimit - m.sizeUsed

/-- `SkipList.Insert`: update the value of an existing key, else add the pair. -/
def slInsert : List (Bytes × Bytes) → Bytes → Bytes → List (Bytes × Bytes)
  | [], k, v => [(k, v)]
  | (k0, v0) :: rest, k, v =>
    if k0 = k then (k0, v) :: rest else (k0, v0) :: slInsert rest k v

/-- `SkipList.Get`. -/
def slGet : List (Bytes × Bytes) → Bytes → Option Bytes
  | [], _ => none
  | (k0, v0) :: rest, k => if k0 = k then some v0 else slGet rest k

/-- `Memtable.Insert`. -/
def memtableInsert (m : Memtable) (key val : Bytes) : Memtable :=
  { m with entries := slInsert m.entries key (encoderEncode OpKindSet val),
           sizeUsed := m.sizeUsed + (key.length + val.length + 1) }

/-- `Memtable.InsertTombstone`. -/
def memtableInsertTombstone (m : Memtable) (key : Bytes) : Memtable :=
  { m with entries := slInsert m.entries key (encoderEncode OpKindDelete []),
           sizeUsed := m.sizeUsed + 1 }

/-- `Memtable.Get`. -/
def memtableGet (m : Memtable) (key : Bytes) : Option EncodedValue :=
  match slGet m.entries key with
  | none => none
  | some ev => some (encoderParse ev)

/-! ## Engine state (src/lsm-store/db/db.go)

`DbState` carries the memtable queue (newest last, the last element is the
mutable memtable), the active WAL (its file number, its byte-level writer
state, and — as the record-level view of the log files on disk — the list
of complete records each WAL file holds), the SST file numbers, the
deleted WAL file numbers, and the next file number the provider will
allocate. -/

structure DbState where
  queue : List Memtable
  walFm : Nat
  walW : WalWriter
  walFileRecords : List (Nat × List (Bytes × Bytes))
  sstables : List Nat
  deletedWals : List Nat
  nextFileNum : Nat
  deriving DecidableEq, Repr

/-- Append one complete record to the record-level view of WAL file `fm`. -/
def appendWalRecord : List (Nat × List (Bytes × Bytes)) → Nat → Bytes × Bytes →
    List (Nat × List (Bytes × Bytes))
  | [], fm, r => [(fm, [r])]
  | (f, rs) :: rest, fm, r =>
    if f = fm then (f, rs ++ [r]) :: rest else (f, rs) :: appendWalRecord rest fm r

/-- The records the view holds for WAL file `fm`. -/
def walRecordsOf : List (Nat × List (Bytes × Bytes)) → Nat → List (Bytes × Bytes)
  | [], _ => []
  | (f, rs) :: rest, fm => if f = fm then rs else walRecordsOf rest fm

/-- `DB.createNewWAL` followed by the surrounding bookkeeping of
`DB.rotateWAL`: close the old writer, allocate the next file number, open a
fresh writer on the new (empty) log file. -/
def rotateWAL (s : DbState) : DbState :=
  { s with
    walW := ⟨0, []⟩
    walFm := s.nextFileNum
    walFileRecords := s.walFileRecords ++ [(s.nextFileNum, [])]
    nextFileNum := s.nextFileNum + 1 }

/-- `DB.rotateMemtables`: a fresh mutable memtable bound to the current WAL
file (`memtableSizeLimit = 4096`), appended to the queue. -/
def rotateMemtables (s : DbState) : DbState :=
  { s with queue := s.queue ++ [newMemtable 4096 s.walFm] }

/-- `DB.prepMemtableForKV`: rotate the WAL and the memtables when the
mutable memtable lacks room for the entry. -/
def prepMemtableForKV (s : DbState) (key val : Bytes) : DbState :=
  match s.queue.getLast? with
  | none => s
  | some m =>
    if hasRoomForWrite m key val then s
    else rotateMemtables (rotateWAL s)

/-- Apply `f` to the last element of the queue (the mutable memtable). -/
def updateLast (f : Memtable → Memtable) : List Memtable → List Memtable
  | [] => []
  | [m] => [f m]
  | m :: rest => m :: updateLast f rest

/-- Which filesystem call of one `flushMemtables` iteration fails. -/
inductive FlushOp where
  | openF | convert | closeF | deleteF
  deriving DecidableEq, Repr

/-- The `for i := 0; i < len(flushable); i++` loop of `DB.flushMemtables`:
per memtable, allocate an SST file number, open / write / close the SST,
append it to `sstables`, delete the memtable's WAL file.  `faults` injects
at most one I/O error per iteration (consumed head-first); the loop stops
at the first error, exactly as the source returns it. -/
def flushLoop : DbState → List Memtable → List (Option (FlushOp × Nat)) →
    Option Nat × DbState
  | s, [], _ => (none, s)
  | s, m :: rest, faults =>
    let meta := s.nextFileNum
    let s1 := { s with nextFileNum := s.nextFileNum + 1 }
    match faults.headD none with
    | some (FlushOp.openF, e) => (some e, s1)
    | some (FlushOp.convert, e) => (some e, s1)
    | some (FlushOp.closeF, e) => (some e, s1)
    | some (FlushOp.deleteF, e) => (some e, { s1 with sstables := s1.sstables ++ [meta] })
    | none =>
      flushLoop
        { s1 with sstables := s1.sstables ++ [meta],
                  deletedWals := s1.deletedWals ++ [m.logFm] }
        rest faults.tail

/-- `DB.flushMemtables`: remove all but the last memtable from the queue
*first*, then flush each removed memtable to a new SST and delete its WAL
file. -/
def flushMemtables (s : DbState) (faults : List (Option (FlushOp × Nat))) :
    Option Nat × DbState :=
  let n := s.queue.length - 1
  let flushable := s.queue.take n
  flushLoop { s with queue := s.queue.drop n } flushable faults

/-- Total size of all memtables, as summed by `DB.maybeScheduleFlush`. -/
def totalSize (q : List Memtable) : Nat :=
  (q.map Memtable.sizeUsed).sum

/-- `DB.maybeScheduleFlush` (`memtableFlushThreshold = 8192`), fault-free
(a flush error calls `log.Fatalf` in the source and cannot be returned). -/
def maybeScheduleFlush (s : DbState) : DbState :=
  if totalSize s.queue > 8192 then (flushMemtables s []).2 else s

/-- Events observed during `DB.Set` / `DB.Delete`: a WAL chunk written and
fsynced to the log file, or a memtable mutation. -/
inductive DbEv where
  | walChunkPersisted
  | memMutated
  deriving DecidableEq, Repr

/-- `DB.Set`: WAL record first (return its error unchanged on failure),
then memtable rotation if needed, then the memtable insert, then
`maybeScheduleFlush`.  Returns `(error?, state, event trace)`; the trace
records one `walChunkPersisted` per chunk written-and-fsynced and one
`memMutated` for the insert. -/
def dbSet (s : DbState) (key val : Bytes) (fault : Option (Nat × Nat)) :
    Option Nat × DbState × List DbEv :=
  let rec0 := walRecordInsertion s.walW key val fault
  match rec0.1 with
  | some e =>
    (some e, { s with walW := rec0.2.1 },
     rec0.2.2.dropLast.map fun _ => DbEv.walChunkPersisted)
  | none =>
    let s1 := { s with
      walW := rec0.2.1
      walFileRecords := appendWalRecord s.walFileRecords s.walFm
        (key, encoderEncode OpKindSet val) }
    let s2 := prepMemtableForKV s1 key val
    let s3 := { s2 with queue := updateLast (fun m => memtableInsert m key val) s2.queue }
    (none, maybeScheduleFlush s3,
     (rec0.2.2.map fun _ => DbEv.walChunkPersisted) ++ [DbEv.memMutated])

/-- `DB.Delete`: like `DB.Set` with `RecordDeletion` and `InsertTombstone`. -/
def dbDelete (s : DbState) (key : Bytes) (fault : Option (Nat × Nat)) :
    Option Nat × DbState × List DbEv :=
  let rec0 := walRecordDeletion s.walW key fault
  match rec0.1 with
  | some e =>
    (some e, { s with walW := rec0.2.1 },
     rec0.2.2.dropLast.map fun _ => DbEv.walChunkPersisted)
  | none =>
    let s1 := { s with
      walW := rec0.2.1
      walFileRecords := appendWalRecord s.walFileRecords s.walFm
        (key, encoderEncode OpKindDelete []) }
    let s2 := prepMemtableForKV s1 key []
    let s3 := { s2 with queue := updateLast (fun m => memtableInsertTombstone m key) s2.queue }
    (none, maybeScheduleFlush s3,
     (rec0.2.2.map fun _ => DbEv.walChunkPersisted) ++ [DbEv.memMutated])

theorem putUvarintAux_length_pos (fuel x : Nat) : 1 ≤ (putUvarintAux fuel x).length := by
  cases fuel with
  | zero => simp [putUvarintAux]
  | succ fuel =>
    rw [putUvarintAux]
    split <;> simp

/-- The chunk loop emits at least one chunk when the payload is nonempty. -/
theorem walRecordLoopAux_types_ne_nil (fuel bo : Nat) (file scratch : List Nat)
    (chunk : Nat) (fault : Option (Nat × Nat)) (h : scratch.length ≠ 0) :
    (walRecordLoopAux (fuel + 1) bo file scratch chunk fault).2.2.2 ≠ [] := by
  rw [walRecordLoopAux]
  rw [if_neg h]
  rcases fault with _ | ⟨fc, e⟩
  · simp
  · by_cases hfc : fc = chunk <;> simp [hfc]

/-- `Writer.record` emits at least one chunk. -/
theorem walRecord_types_ne_nil (w : WalWriter) (key val : Bytes)
    (fault : Option (Nat × Nat)) :
    (walRecord w key val fault).2.2 ≠ [] := by
  rw [walRecord]
  have h1 := putUvarintAux_length_pos key.length key.length
  have hlen : (putUvarint key.length ++ putUvarint val.length ++ key ++ val).length ≠ 0 := by
    rw [putUvarint]
    simp only [List.length_append]
    omega
  have hsucc : (putUvarint key.length ++ putUvarint val.length ++ key ++ val).length + 1 - 1 + 1 =
      (putUvarint key.length ++ putUvarint val.length ++ key ++ val).length + 1 := by omega
  rw [← hsucc]
  exact walRecordLoopAux_types_ne_nil _ _ _ _ _ _ hlen

/-- C2: for every `Set(key, value)` and every `Delete(key)`, the WAL record
is written and fsynced before any memtable mutation (the success trace is
all the record's chunk syncs followed by the single memtable mutation); if
the WAL record call returns an error, Set/Delete returns that very error
and the memtable queue is unchanged, with no memtable mutation in the
trace. -/
theorem claim_C2_wal_before_memtable (s : DbState) (key val : Bytes)
    (fault : Option (Nat × Nat)) :
    ((dbSet s key val fault).1 = (walRecordInsertion s.walW key val fault).1 ∧
     (∀ e, (dbSet s key val fault).1 = some e →
       (dbSet s key val fault).2.1.queue = s.queue ∧
       DbEv.memMutated ∉ (dbSet s key val fault).2.2) ∧
     ((dbSet s key val fault).1 = none →
       ∃ nw, 1 ≤ nw ∧ (dbSet s key val fault).2.2 =
         List.replicate nw DbEv.walChunkPersisted ++ [DbEv.memMutated])) ∧
    ((dbDelete s key fault).1 = (walRecordDeletion s.walW key fault).1 ∧
     (∀ e, (dbDelete s key fault).1 = some e →
       (dbDelete s key fault).2.1.queue = s.queue ∧
       DbEv.memMutated ∉ (dbDelete s key fault).2.2) ∧
     ((dbDelete s key fault).1 = none →
       ∃ nw, 1 ≤ nw ∧ (dbDelete s key fault).2.2 =
         List.replicate nw DbEv.walChunkPersisted ++ [DbEv.memMutated])) := by
  constructor
  · rcases h : (walRecordInsertion s.walW key val fault).1 with _ | e
    · refine ⟨by simp [dbSet, h], ?_, ?_⟩
      · intro e he
        rw [dbSet] at he
        simp only [h] at he
        exact absurd he (by simp)
      · intro _
        rw [dbSet]
        simp only [h]
        refine ⟨(walRecordInsertion s.walW key val fault).2.2.length, ?_, ?_⟩
        · have := walRecord_types_ne_nil s.walW key (encoderEncode OpKindSet val) fault
          rw [walRecordInsertion]
          cases hts : (walRecord s.walW key (encoderEncode OpKindSet val) fault).2.2 with
          | nil => exact absurd hts this
          | cons t ts => simp
        · simp [List.map_const']
    · refine ⟨by simp [dbSet, h], ?_, ?_⟩
      · intro e' he
        rw [dbSet]
        simp only [h]
        constructor
        · trivial
        · simp [List.mem_map]
      · intro hnone
        rw [dbSet] at hnone
        simp only [h] at hnone
        exact absurd hnone (by simp)
  · rcases h : (walRecordDeletion s.walW key fault).1 with _ | e
    · refine ⟨by simp [dbDelete, h], ?_, ?_⟩
      · intro e he
        rw [dbDelete] at he
        simp only [h] at he
        exact absurd he (by simp)
      · intro _
        rw [dbDelete]
        simp only [h]
        refine ⟨(walRecordDeletion s.walW key fault).2.2.length, ?_, ?_⟩
        · have := walRecord_types_ne_nil s.walW key (encoderEncode OpKindDelete []) fault
          rw [walRecordDeletion]
          cases hts : (walRecord s.walW key (encoderEncode OpKindDelete []) fault).2.2 with
          | nil => exact absurd hts this
          | cons t ts => simp
        · simp [List.map_const']
    · refine ⟨by simp [dbDelete, h], ?_, ?_⟩
      · intro e' he
        rw [dbDelete]
        simp only [h]
        constructor
        · trivial
        · simp [List.mem_map]
      · intro hnone
        rw [dbDelete] at hnone
        simp only [h] at hnone
        exact absurd hnone (by simp)

/-- A small concrete engine state: one fresh mutable memtable bound to WAL
file 0, which is the active WAL. -/
def exampleDb : DbState :=
  { queue := [newMemtable 4096 0], walFm := 0, walW := ⟨0, []⟩,
    walFileRecords := [(0, [])], sstables := [], deletedWals := [],
    nextFileNum := 1 }

/-- Witness for C2: with a sync fault on chunk 0 carrying error id 7,
`Set([1], [2])` returns error 7, leaves the memtable queue unchanged, and
mutates no memtable. -/
theorem claim_C2_wal_before_memtable_witness :
    (dbSet exampleDb [1] [2] (some (0, 7))).1 = some 7 ∧
    (dbSet exampleDb [1] [2] (some (0, 7))).2.1.queue = exampleDb.queue ∧
    DbEv.memMutated ∉ (dbSet exampleDb [1] [2] (some (0, 7))).2.2 :=
  ⟨by decide,
   (claim_C2_wal_before_memtable exampleDb [1] [2] (some (0, 7))).1.2.1 7 (by decide)⟩

theorem flushLoop_queue (ms : List Memtable) :
    ∀ (s : DbState) (faults : List (Option (FlushOp × Nat))),
      (flushLoop s ms faults).2.queue = s.queue := by
  induction ms with
  | nil => intro s faults; rfl
  | cons m rest ih =>
    intro s faults
    rw [flushLoop]
    rcases hf : faults.headD none with _ | ⟨op, e⟩
    · rw [ih]
    · cases op <;> rfl

theorem getD_tail {α : Type} (l : List α) (i : Nat) (d : α) :
    l.tail.getD i d = l.getD (i + 1) d := by
  cases l with
  | nil => simp
  | cons x rest => rfl

theorem flushLoop_fault (i : Nat) :
    ∀ (ms : List Memtable) (s : DbState) (faults : List (Option (FlushOp × Nat)))
      (op : FlushOp) (e : Nat),
      i < ms.length →
      faults.getD i none = some (op, e) →
      (∀ j, j < i → faults.getD j none = none) →
      (flushLoop s ms faults).1 = some e ∧
      (flushLoop s ms faults).2.deletedWals =
        s.deletedWals ++ (ms.take i).map Memtable.logFm := by
  induction i with
  | zero =>
    intro ms s faults op e hi hf _
    cases ms with
    | nil => simp at hi
    | cons m rest =>
      rw [flushLoop]
      have hhead : faults.headD none = some (op, e) := by
        cases faults with
        | nil => simp at hf
        | cons f fs => simpa using hf
      rw [hhead]
      cases op <;> simp
  | succ i ih =>
    intro ms s faults op e hi hf hprev
    cases ms with
    | nil => simp at hi
    | cons m rest =>
      rw [flushLoop]
      have hhead : faults.headD none = none := by
        have h0 := hprev 0 (Nat.succ_pos i)
        cases faults with
        | nil => rfl
        | cons f fs => simpa using h0
      rw [hhead]
      have hrec := ih rest
        { s with nextFileNum := s.nextFileNum + 1,
                 sstables := s.sstables ++ [s.nextFileNum],
                 deletedWals := s.deletedWals ++ [m.logFm] }
        faults.tail op e (by simpa using hi)
        (by rw [getD_tail]; exact hf)
        (by intro j hj; rw [getD_tail]; exact hprev (j + 1) (by omega))
      refine ⟨hrec.1, ?_⟩
      rw [hrec.2]
      simp [List.take_succ_cons]

/-- C9: `flushMemtables` removes all immutable memtables from the queue
before any file I/O; when an I/O step of flushing the `i`-th memtable
fails (open, write, close, or WAL delete), the error is returned, the
already-removed memtables are not restored — the queue holds only the
mutable memtable and differs from the pre-flush queue — and only the WAL
files of the `i` successfully flushed memtables were deleted. -/
theorem claim_C9_flush_not_atomic (s : DbState) (faults : List (Option (FlushOp × Nat)))
    (i : Nat) (op : FlushOp) (e : Nat)
    (hi : i < s.queue.length - 1)
    (hf : faults.getD i none = some (op, e))
    (hprev : ∀ j, j < i → faults.getD j none = none) :
    (flushMemtables s faults).2.queue = s.queue.drop (s.queue.length - 1) ∧
    (flushMemtables s faults).2.queue.length = 1 ∧
    (flushMemtables s faults).1 = some e ∧
    (flushMemtables s faults).2.deletedWals =
      s.deletedWals ++ (s.queue.take i).map Memtable.logFm ∧
    (flushMemtables s faults).2.queue ≠ s.queue := by
  have hlen : (s.queue.take (s.queue.length - 1)).length = s.queue.length - 1 := by
    rw [List.length_take]
    omega
  have hfault := flushLoop_fault i (s.queue.take (s.queue.length - 1))
    { s with queue := s.queue.drop (s.queue.length - 1) } faults op e
    (by omega) hf hprev
  have hqueue : (flushMemtables s faults).2.queue = s.queue.drop (s.queue.length - 1) := by
    rw [flushMemtables, flushLoop_queue]
  have hql : (flushMemtables s faults).2.queue.length = 1 := by
    rw [hqueue, List.length_drop]
    omega
  refine ⟨hqueue, hql, ?_, ?_, ?_⟩
  · rw [flushMemtables]
    exact hfault.1
  · rw [flushMemtables]
    rw [hfault.2]
    have htt : (s.queue.take (s.queue.length - 1)).take i = s.queue.take i := by
      rw [List.take_take]
      congr 1
      omega
    rw [htt]
  · rw [hqueue]
    intro hc
    have := congrArg List.length hc
    rw [List.length_drop] at this
    omega

/-- Witness for C9 at a three-memtable queue whose first flush iteration
fails opening the SST file with error id 9. -/
theorem claim_C9_flush_not_atomic_witness :
    (0 : Nat) < ([newMemtable 4096 0, newMemtable 4096 1, newMemtable 4096 2].length - 1) ∧
    (flushMemtables
      { queue := [newMemtable 4096 0, newMemtable 4096 1, newMemtable 4096 2],
        walFm := 2, walW := ⟨0, []⟩, walFileRecords := [], sstables := [],
        deletedWals := [], nextFileNum := 3 }
      [some (FlushOp.openF, 9)]).1 = some 9 ∧
    (flushMemtables
      { queue := [newMemtable 4096 0, newMemtable 4096 1, newMemtable 4096 2],
        walFm := 2, walW := ⟨0, []⟩, walFileRecords := [], sstables := [],
        deletedWals := [], nextFileNum := 3 }
      [some (FlushOp.openF, 9)]).2.queue = [newMemtable 4096 2] ∧
    (flushMemtables
      { queue := [newMemtable 4096 0, newMemtable 4096 1, newMemtable 4096 2],
        walFm := 2, walW := ⟨0, []⟩, walFileRecords := [], sstables := [],
        deletedWals := [], nextFileNum := 3 }
      [some (FlushOp.openF, 9)]).2.deletedWals = [] := by
  have h := claim_C9_flush_not_atomic
    { queue := [newMemtable 4096 0, newMemtable 4096 1, newMemtable 4096 2],
      walFm := 2, walW := ⟨0, []⟩, walFileRecords := [], sstables := [],
      deletedWals := [], nextFileNum := 3 }
    [some (FlushOp.openF, 9)] 0 FlushOp.openF 9 (by decide) (by decide)
    (by intro j hj; exact absurd hj (Nat.not_lt_zero j))
  exact ⟨by decide, h.2.2.1, by rw [h.1]; decide, by rw [h.2.2.2.1]; decide⟩

theorem walRecordLoopAux_noFault_err :
    ∀ (fuel bo : Nat) (file scratch : List Nat) (chunk : Nat),
      (walRecordLoopAux fuel bo file scratch chunk none).1 = none := by
  intro fuel
  induction fuel with
  | zero => intro bo file scratch chunk; rfl
  | succ fuel ih =>
    intro bo file scratch chunk
    rw [walRecordLoopAux]
    by_cases h : scratch.length = 0
    · rw [if_pos h]
    · rw [if_neg h]
      exact ih _ _ _ _

theorem walRecord_noFault_err (w : WalWriter) (key val : Bytes) :
    (walRecord w key val none).1 = none := by
  rw [walRecord]
  exact walRecordLoopAux_noFault_err _ _ _ _ _

theorem updateLast_append_singleton (f : Memtable → Memtable) (q : List Memtable)
    (m : Memtable) : updateLast f (q ++ [m]) = q ++ [f m] := by
  induction q with
  | nil => rfl
  | cons x rest ih =>
    cases rest with
    | nil => rfl
    | cons y ys =>
      show x :: updateLast f ((y :: ys) ++ [m]) = x :: ((y :: ys) ++ [f m])
      rw [ih]

theorem walRecordsOf_appendWalRecord (l : List (Nat × List (Bytes × Bytes))) (fm : Nat)
    (r : Bytes × Bytes) :
    walRecordsOf (appendWalRecord l fm r) fm = walRecordsOf l fm ++ [r] := by
  induction l with
  | nil => simp [appendWalRecord, walRecordsOf]
  | cons p rest ih =>
    rcases p with ⟨f, rs⟩
    by_cases hf : f = fm
    · simp [appendWalRecord, walRecordsOf, hf]
    · simp [appendWalRecord, walRecordsOf, hf, ih]

theorem walRecordsOf_append_other (l : List (Nat × List (Bytes × Bytes)))
    (fm fm' : Nat) (rs : List (Bytes × Bytes)) (h : fm ≠ fm') :
    walRecordsOf (l ++ [(fm', rs)]) fm = walRecordsOf l fm := by
  induction l with
  | nil =>
    have hstep : walRecordsOf ([] ++ [(fm', rs)]) fm =
        if fm' = fm then rs else walRecordsOf ([] : List (Nat × List (Bytes × Bytes))) fm := rfl
    rw [hstep, if_neg (fun he => h he.symm)]
  | cons p rest ih =>
    rcases p with ⟨f, rs0⟩
    by_cases hf : f = fm
    · simp [walRecordsOf, hf]
    · simp [walRecordsOf, hf, ih]

theorem flushLoop_noFaults (ms : List Memtable) :
    ∀ s : DbState,
      (flushLoop s ms []).1 = none ∧
      (flushLoop s ms []).2.deletedWals = s.deletedWals ++ ms.map Memtable.logFm := by
  induction ms with
  | nil => intro s; simp [flushLoop]
  | cons m rest ih =>
    intro s
    rw [flushLoop]
    simp only [List.headD_nil, List.tail_nil]
    refine ⟨(ih _).1, ?_⟩
    rw [(ih _).2]
    simp

theorem totalSize_append (q : List Memtable) (m : Memtable) :
    totalSize (q ++ [m]) = totalSize q + m.sizeUsed := by
  simp [totalSize]

/-- The success path of `DB.Set` when the mutable memtable lacks room:
the WAL record goes to the pre-rotation WAL file, then the WAL and the
memtables rotate, and the key is inserted into the fresh memtable bound to
the new WAL file. -/
theorem dbSet_rotation_eval (s : DbState) (key val : Bytes)
    (hq : s.queue ≠ [])
    (hfull : hasRoomForWrite (s.queue.getLast hq) key val = false)
    (hsize : totalSize s.queue + (key.length + val.length + 1) ≤ 8192) :
    (dbSet s key val none).1 = none ∧
    (dbSet s key val none).2.1 =
      { queue := s.queue ++ [memtableInsert (newMemtable 4096 s.nextFileNum) key val]
        walFm := s.nextFileNum
        walW := ⟨0, []⟩
        walFileRecords := appendWalRecord s.walFileRecords s.walFm
          (key, encoderEncode OpKindSet val) ++ [(s.nextFileNum, [])]
        sstables := s.sstables
        deletedWals := s.deletedWals
        nextFileNum := s.nextFileNum + 1 } := by
  have herr : (walRecordInsertion s.walW key val none).1 = none := by
    rw [walRecordInsertion]
    exact walRecord_noFault_err _ _ _
  rw [dbSet]
  simp only [herr]
  have hprep : prepMemtableForKV
      { s with walW := (walRecordInsertion s.walW key val none).2.1,
               walFileRecords := appendWalRecord s.walFileRecords s.walFm
                 (key, encoderEncode OpKindSet val) } key val =
      { queue := s.queue ++ [newMemtable 4096 s.nextFileNum]
        walFm := s.nextFileNum
        walW := ⟨0, []⟩
        walFileRecords := appendWalRecord s.walFileRecords s.walFm
          (key, encoderEncode OpKindSet val) ++ [(s.nextFileNum, [])]
        sstables := s.sstables
        deletedWals := s.deletedWals
        nextFileNum := s.nextFileNum + 1 } := by
    rw [prepMemtableForKV]
    dsimp only
    rw [List.getLast?_eq_getLast s.queue hq]
    simp only [hfull, Bool.false_eq_true, if_false]
    rfl
  rw [hprep]
  dsimp only
  rw [updateLast_append_singleton]
  have hsz : ¬ totalSize (s.queue ++ [memtableInsert (newMemtable 4096 s.nextFileNum) key val])
      > 8192 := by
    rw [totalSize_append]
    simp only [memtableInsert, newMemtable]
    omega
  rw [maybeScheduleFlush, if_neg hsz]
  exact ⟨trivial, rfl⟩

/-- C10: when `Set(key, val)` triggers rotation (the mutable memtable lacks
room), the WAL record for that very key was already written to the
pre-rotation WAL file `s.walFm`, while the key is inserted into the fresh
memtable whose WAL back-reference is the new file `s.nextFileNum`; when
the older memtable is later flushed, the older WAL file `s.walFm` is
deleted even though it holds the record for the newer memtable's entry,
which is still in the queue. -/
theorem claim_C10_rotation_wal_mismatch (s : DbState) (key val : Bytes)
    (hq : s.queue ≠ [])
    (hfull : hasRoomForWrite (s.queue.getLast hq) key val = false)
    (hfm : (s.queue.getLast hq).logFm = s.walFm)
    (hnew : s.walFm ≠ s.nextFileNum)
    (hsize : totalSize s.queue + (key.length + val.length + 1) ≤ 8192) :
    (dbSet s key val none).1 = none ∧
    walRecordsOf (dbSet s key val none).2.1.walFileRecords s.walFm =
      walRecordsOf s.walFileRecords s.walFm ++ [(key, encoderEncode OpKindSet val)] ∧
    (dbSet s key val none).2.1.queue =
      s.queue ++ [memtableInsert (newMemtable 4096 s.nextFileNum) key val] ∧
    (memtableInsert (newMemtable 4096 s.nextFileNum) key val).logFm = s.nextFileNum ∧
    slGet (memtableInsert (newMemtable 4096 s.nextFileNum) key val).entries key =
      some (encoderEncode OpKindSet val) ∧
    s.nextFileNum ≠ s.walFm ∧
    s.walFm ∈ (flushMemtables (dbSet s key val none).2.1 []).2.deletedWals ∧
    (flushMemtables (dbSet s key val none).2.1 []).2.queue =
      [memtableInsert (newMemtable 4096 s.nextFileNum) key val] := by
  obtain ⟨h1, h2⟩ := dbSet_rotation_eval s key val hq hfull hsize
  refine ⟨h1, ?_, ?_, rfl, ?_, fun he => hnew he.symm, ?_, ?_⟩
  · rw [h2]
    dsimp only
    rw [walRecordsOf_append_other _ _ _ _ hnew, walRecordsOf_appendWalRecord]
  · rw [h2]
  · simp [memtableInsert, newMemtable, slInsert, slGet]
  · rw [h2, flushMemtables]
    dsimp only
    have hdrop : (s.queue ++ [memtableInsert (newMemtable 4096 s.nextFileNum) key val]).drop
        ((s.queue ++ [memtableInsert (newMemtable 4096 s.nextFileNum) key val]).length - 1) =
        [memtableInsert (newMemtable 4096 s.nextFileNum) key val] := by
      rw [List.length_append]
      simp only [List.length_cons, List.length_nil]
      have hl : s.queue.length + (0 + 1) - 1 = s.queue.length := by omega
      rw [hl, List.drop_left]
    have htake : (s.queue ++ [memtableInsert (newMemtable 4096 s.nextFileNum) key val]).take
        ((s.queue ++ [memtableInsert (newMemtable 4096 s.nextFileNum) key val]).length - 1) =
        s.queue := by
      rw [List.length_append]
      simp only [List.length_cons, List.length_nil]
      have hl : s.queue.length + (0 + 1) - 1 = s.queue.length := by omega
      rw [hl, List.take_left]
    rw [hdrop, htake]
    rw [(flushLoop_noFaults s.queue _).2]
    dsimp only
    apply List.mem_append_right
    rw [← hfm]
    exact List.mem_map_of_mem Memtable.logFm (List.getLast_mem hq)
  · rw [h2, flushMemtables]
    dsimp only
    rw [flushLoop_queue]
    dsimp only
    rw [List.length_append]
    simp only [List.length_cons, List.length_nil]
    have hl : s.queue.length + (0 + 1) - 1 = s.queue.length := by omega
    rw [hl, List.drop_left]

/-- An engine state whose mutable memtable (bound to WAL file 0, the active
WAL) is nearly full: 4090 of 4096 bytes used. -/
def nearlyFullDb : DbState :=
  { queue := [{ entries := [], sizeUsed := 4090, sizeLimit := 4096, logFm := 0 }],
    walFm := 0, walW := ⟨0, []⟩, walFileRecords := [(0, [])], sstables := [],
    deletedWals := [], nextFileNum := 1 }

/-- Witness for C10: `Set([1,2,3], [4,5,6,7])` (8 bytes, 6 available)
rotates; afterwards flushing deletes WAL file 0 although it holds the
record for the entry living in the new memtable, which survives in the
queue. -/
theorem claim_C10_rotation_wal_mismatch_witness :
    (dbSet nearlyFullDb [1, 2, 3] [4, 5, 6, 7] none).1 = none ∧
    (0 : Nat) ∈ (flushMemtables (dbSet nearlyFullDb [1, 2, 3] [4, 5, 6, 7] none).2.1
      []).2.deletedWals ∧
    (flushMemtables (dbSet nearlyFullDb [1, 2, 3] [4, 5, 6, 7] none).2.1 []).2.queue =
      [memtableInsert (newMemtable 4096 1) [1, 2, 3] [4, 5, 6, 7]] := by
  have h := claim_C10_rotation_wal_mismatch nearlyFullDb [1, 2, 3] [4, 5, 6, 7]
    (by decide) (by decide) (by decide) (by decide) (by decide)
  exact ⟨h.1, h.2.2.2.2.2.2.1, h.2.2.2.2.2.2.2⟩

/-! ## Engine point lookup (src/lsm-store/db/db.go, DB.Get)

`DB.Get` scans the memtable queue newest → oldest, then the SST list
newest → oldest.  For a key missing from an SST, `Reader.Get` returns
`fmt.Errorf("key not found")` — a freshly allocated error value — and the
engine tests it with `errors.Is(err, fmt.Errorf("key not found"))`, whose
target is *another* freshly allocated error value.  `errors.Is` on the
non-wrapping error values produced by `fmt.Errorf` (without `%w`) compares
by identity, so two distinct allocations never match.  The model makes
allocation identity explicit: a counter issues a fresh id per
`fmt.Errorf` call, and `errors.Is` is id equality.  `log.Fatal` (process
abort) is the result `fatal`. -/

/-- Result of `DB.Get`: the payload, the key-not-found error, or a
`log.Fatal` process abort. -/
inductive EngineGetResult where
  | found (v : Bytes)
  | keyNotFound
  | fatal
  deriving DecidableEq, Repr

/-- The memtable scan of `DB.Get` (queue given newest first). -/
def memScan : List Memtable → Bytes → Option EncodedValue
  | [], _ => none
  | m :: older, key =>
    match memtableGet m key with
    | some ev => some ev
    | none => memScan older key

/-- The SST scan of `DB.Get` (SSTs given newest first; each SST abstracted
to the key ↦ encoded-value map its reader serves).  `ctr` is the
allocation counter for `fmt.Errorf` error values. -/
def engineGetSstLoop : List (List (Bytes × Bytes)) → Bytes → Nat → EngineGetResult
  | [], _, _ => EngineGetResult.keyNotFound
  | sst :: older, key, ctr =>
    match slGet sst key with
    | some ev =>
      if (encoderParse ev).IsTombstone then EngineGetResult.keyNotFound
      else EngineGetResult.found (encoderParse ev).val
    | none =>
      -- err := fmt.Errorf("key not found") allocated inside Reader.Get
      let errId := ctr
      -- target := fmt.Errorf("key not found") allocated by the errors.Is call
      let targetId := ctr + 1
      if errId = targetId then engineGetSstLoop older key (ctr + 2)  -- continue
      else EngineGetResult.fatal  -- log.Fatal(err)

/-- `DB.Get`: memtables newest → oldest, then SSTs newest → oldest
(`queue` and `ssts` are stored oldest first, as in the source). -/
def engineGet (queue : List Memtable) (ssts : List (List (Bytes × Bytes)))
    (key : Bytes) : EngineGetResult :=
  match memScan queue.reverse key with
  | some ev =>
    if ev.IsTombstone then EngineGetResult.keyNotFound
    else EngineGetResult.found ev.val
  | none => engineGetSstLoop ssts.reverse key 0

/-- C1 (refuting the claim on the code): with key "a" (byte 97) stored only
in the older of two SSTs and absent from the memtable and the newer SST,
`DB.Get` hits the dead `errors.Is(err, fmt.Errorf("key not found"))`
branch and calls `log.Fatal` instead of continuing to the older SST: the
result is `fatal`, not the payload [49]. -/
theorem claim_C1_get_fatal_instead_of_older_sst :
    engineGet [newMemtable 4096 0]
      [[([97], encoderEncode OpKindSet [49])], [([98], encoderEncode OpKindSet [50])]]
      [97] = EngineGetResult.fatal ∧
    EngineGetResult.fatal ≠ EngineGetResult.found [49] := by
  exact ⟨by decide, by decide⟩

/-! ## SST writer (src/lsm-store/sstable/writer.go)

The writer in src/ writes each memtable entry *immediately* to the file as
`uvarint(keyLen) || uvarint(valLen) || key || encodedValue` (one data block
per entry, no compression, no flush threshold) and records one index
offset per entry; `writeIndexBlock` appends the offsets (4 bytes each,
little-endian) and the offset count. -/

/-- `binary.LittleEndian.PutUint32`. -/
def putUint32LE (n : Nat) : List Nat :=
  [n % 256, n / 256 % 256, n / 2 ^ 16 % 256, n / 2 ^ 24 % 256]

structure SstWriter where
  file : List Nat
  offsets : List Nat
  nextOffset : Nat
  deriving DecidableEq, Repr

/-- The bytes `Writer.writeDataBlock` emits for one entry. -/
def sstEntryEncoding (kv : Bytes × Bytes) : List Nat :=
  putUvarint kv.1.length ++ putUvarint kv.2.length ++ kv.1 ++ kv.2

/-- `Writer.writeDataBlock`: stage the entry in the scratch buffer and hand
it straight to the buffered file writer; returns the bytes written. -/
def writeDataBlock (w : SstWriter) (key encodedVal : Bytes) : SstWriter × Nat :=
  ({ w with file := w.file ++ sstEntryEncoding (key, encodedVal) },
   (sstEntryEncoding (key, encodedVal)).length)

/-- `Writer.addIndexEntry` (offsets are uint32). -/
def addIndexEntry (w : SstWriter) (n : Nat) : SstWriter :=
  { w with offsets := w.offsets ++ [w.nextOffset],
           nextOffset := (w.nextOffset + n) % 2 ^ 32 }

/-- `Writer.writeIndexBlock`: 4 bytes per offset plus 4 bytes for the count. -/
def writeIndexBlock (w : SstWriter) : SstWriter :=
  { w with file := w.file ++ (w.offsets.map putUint32LE).flatten ++
      putUint32LE w.offsets.length }

/-- `Writer.ConvertMemtableToSST`: iterate the memtable entries in order,
write each as a data block and index it, then write the index block. -/
def convertMemtableToSST (entries : List (Bytes × Bytes)) : SstWriter :=
  writeIndexBlock (entries.foldl
    (fun w kv => addIndexEntry (writeDataBlock w kv.1 kv.2).1 (writeDataBlock w kv.1 kv.2).2)
    ⟨[], [], 0⟩)

/-- C6 counterexample: converting the two-entry memtable
[("a", SET "1"), ("b", SET "2")] — 10 data bytes in total, far below the
claimed 3686-byte flush trigger — produces *two* index offsets (one data
block per entry, where the claim's accumulate-until-3686 rule implies a
single block), and the file begins with the two entries' raw, uncompressed
bytes. -/
theorem claim_C6_counterexample :
    (convertMemtableToSST [([97], [1, 49]), ([98], [1, 50])]).offsets = [0, 5] ∧
    (convertMemtableToSST [([97], [1, 49]), ([98], [1, 50])]).offsets.length = 2 ∧
    (convertMemtableToSST [([97], [1, 49]), ([98], [1, 50])]).file.take 10 =
      [1, 2, 97, 1, 49] ++ [1, 2, 98, 1, 50] ∧
    ([1, 2, 97, 1, 49] ++ [1, 2, 98, 1, 50] : List Nat).length ≤ 3686 := by
  exact ⟨by decide, by decide, by decide, by decide⟩

theorem convertMemtableToSST_foldl (entries : List (Bytes × Bytes)) :
    ∀ w : SstWriter,
      (entries.foldl
        (fun w kv => addIndexEntry (writeDataBlock w kv.1 kv.2).1 (writeDataBlock w kv.1 kv.2).2)
        w).offsets.length = w.offsets.length + entries.length ∧
      (entries.foldl
        (fun w kv => addIndexEntry (writeDataBlock w kv.1 kv.2).1 (writeDataBlock w kv.1 kv.2).2)
        w).file = w.file ++ (entries.map sstEntryEncoding).flatten := by
  induction entries with
  | nil => intro w; simp
  | cons kv rest ih =>
    intro w
    rw [List.foldl_cons]
    refine ⟨?_, ?_⟩
    · rw [(ih _).1]
      simp [addIndexEntry, writeDataBlock]
      omega
    · rw [(ih _).2]
      simp [addIndexEntry, writeDataBlock]

/-- C6 amended: the SST writer under src/ writes each entry immediately as
its own data block — exactly `uvarint(keyLen) || uvarint(valLen) || key ||
encodedValue`, uncompressed — records one index offset per entry (so a
memtable of n entries yields n data blocks, with no accumulation threshold
and no Snappy stage), and ends the file with the offsets and their count. -/
theorem claim_C6_amended_one_block_per_entry (entries : List (Bytes × Bytes)) :
    (convertMemtableToSST entries).offsets.length = entries.length ∧
    (convertMemtableToSST entries).file =
      (entries.map sstEntryEncoding).flatten ++
      ((convertMemtableToSST entries).offsets.map putUint32LE).flatten ++
      putUint32LE entries.length := by
  obtain ⟨h1, h2⟩ := convertMemtableToSST_foldl entries ⟨[], [], 0⟩
  have hoff : (convertMemtableToSST entries).offsets =
      (entries.foldl
        (fun w kv => addIndexEntry (writeDataBlock w kv.1 kv.2).1 (writeDataBlock w kv.1 kv.2).2)
        ⟨[], [], 0⟩).offsets := rfl
  refine ⟨?_, ?_⟩
  · rw [hoff, h1]
    simp
  · show (writeIndexBlock _).file = _
    rw [writeIndexBlock]
    dsimp only
    rw [h2, hoff]
    have hlen : (entries.foldl
        (fun w kv => addIndexEntry (writeDataBlock w kv.1 kv.2).1 (writeDataBlock w kv.1 kv.2).2)
        ⟨[], [], 0⟩).offsets.length = entries.length := by
      rw [h1]; simp
    rw [hlen]
    simp [List.append_assoc]
